import Mathlib

/-!
Verification of the aiocos request-signing algorithm (aiocos/auth.py,
aiocos/utils.py) and of the regex-based XML codec and service-error parser
(aiocos/utils.py, aiocos/errors.py).

Python strings are modelled as Lean `String`; byte strings as `List Nat`
(each entry < 256); Python dicts as insertion-ordered association lists
with last-write-wins update, mirroring CPython semantics.  The wall-clock
sample `time()` taken inside `Auth.get_auth` is passed as an explicit
integer argument `t`.
-/

/-! ## Generic string and byte utilities -/

/-- Python `sep.join(lst)`. -/
def strJoin (sep : String) : List String → String
  | [] => ""
  | x :: xs => xs.foldl (fun acc y => acc ++ sep ++ y) x

/-- UTF-8 encoding of a single character (the encoding `str.encode()` uses). -/
def utf8Char (c : Char) : List Nat :=
  let n := c.toNat
  if n < 128 then [n]
  else if n < 2048 then [192 ||| (n >>> 6), 128 ||| (n &&& 63)]
  else if n < 65536 then
    [224 ||| (n >>> 12), 128 ||| ((n >>> 6) &&& 63), 128 ||| (n &&& 63)]
  else
    [240 ||| (n >>> 18), 128 ||| ((n >>> 12) &&& 63),
     128 ||| ((n >>> 6) &&& 63), 128 ||| (n &&& 63)]

/-- `ensure_bytes` applied to a `str`: its UTF-8 byte sequence
(utils.py `ensure_bytes`). -/
def strBytes (s : String) : List Nat :=
  s.data.flatMap utf8Char

/-- Lower-case hex digit for `0 ≤ n < 16`. -/
def hexLower (n : Nat) : Char :=
  if n < 10 then Char.ofNat (48 + n) else Char.ofNat (87 + n)

/-- Upper-case hex digit for `0 ≤ n < 16` (as `urllib.parse.quote` emits). -/
def hexUpper (n : Nat) : Char :=
  if n < 10 then Char.ofNat (48 + n) else Char.ofNat (55 + n)

/-- `hexdigest()`: lower-case hex rendering of a byte string. -/
def bytesToHex (l : List Nat) : String :=
  String.mk (l.flatMap (fun b => [hexLower (b / 16 % 16), hexLower (b % 16)]))

/-! ## SHA-1 and HMAC-SHA1 (hashlib.sha1 / hmac, modelled over `Nat`) -/

/-- Truncation to a 32-bit word. -/
def w32 (n : Nat) : Nat := n % 4294967296

/-- Truncation to a byte. -/
def w8 (n : Nat) : Nat := n % 256

/-- 32-bit left rotation (`b` positions, `n < 2^32`). -/
def rotl (b n : Nat) : Nat := w32 ((n <<< b) ||| (n >>> (32 - b)))

/-- Split a list into consecutive chunks of `n` elements (fuel-driven so that
it reduces definitionally). -/
def chunksOfAux (n : Nat) : Nat → List Nat → List (List Nat)
  | 0, _ => []
  | _ + 1, [] => []
  | fuel + 1, l@(_ :: _) => l.take n :: chunksOfAux n fuel (l.drop n)

def chunksOf (n : Nat) (l : List Nat) : List (List Nat) :=
  chunksOfAux n l.length l

/-- Big-endian 8-byte rendering of the message bit length. -/
def be8 (n : Nat) : List Nat :=
  [w8 (n >>> 56), w8 (n >>> 48), w8 (n >>> 40), w8 (n >>> 32),
   w8 (n >>> 24), w8 (n >>> 16), w8 (n >>> 8), w8 n]

/-- SHA-1 padding: `0x80`, zeros to 56 mod 64, then the 64-bit bit length. -/
def padMsg (msg : List Nat) : List Nat :=
  msg ++ [128] ++ List.replicate ((120 - ((msg.length + 1) % 64)) % 64) 0
      ++ be8 (8 * msg.length)

/-- One big-endian 32-bit word from (up to) four bytes. -/
def beWord (g : List Nat) : Nat := g.foldl (fun acc b => acc * 256 + b) 0

/-- Extend the 16 schedule words to 80. -/
def schedExt : Nat → List Nat → List Nat
  | 0, w => w
  | k + 1, w =>
    let i := w.length
    schedExt k (w ++ [rotl 1 ((w.getD (i - 3) 0) ^^^ (w.getD (i - 8) 0) ^^^
                              (w.getD (i - 14) 0) ^^^ (w.getD (i - 16) 0))])

/-- One SHA-1 round, `iw = (round index, schedule word)`. -/
def sha1Step (st : Nat × Nat × Nat × Nat × Nat) (iw : Nat × Nat) :
    Nat × Nat × Nat × Nat × Nat :=
  let a := st.1
  let b := st.2.1
  let c := st.2.2.1
  let d := st.2.2.2.1
  let e := st.2.2.2.2
  let i := iw.1
  let f := if i < 20 then (b &&& c) ||| ((b ^^^ 4294967295) &&& d)
    else if i < 40 then b ^^^ c ^^^ d
    else if i < 60 then (b &&& c) ||| (b &&& d) ||| (c &&& d)
    else b ^^^ c ^^^ d
  let k := if i < 20 then 1518500249
    else if i < 40 then 1859775393
    else if i < 60 then 2400959708
    else 3395469782
  (w32 (rotl 5 a + f + e + k + iw.2), a, rotl 30 b, c, d)

/-- Process one 64-byte chunk. -/
def sha1Chunk (h : Nat × Nat × Nat × Nat × Nat) (chunk : List Nat) :
    Nat × Nat × Nat × Nat × Nat :=
  let ws := schedExt 64 ((chunksOf 4 chunk).map beWord)
  let st := ((List.range 80).zip ws).foldl sha1Step h
  (w32 (h.1 + st.1), w32 (h.2.1 + st.2.1), w32 (h.2.2.1 + st.2.2.1),
   w32 (h.2.2.2.1 + st.2.2.2.1), w32 (h.2.2.2.2 + st.2.2.2.2))

/-- The five final SHA-1 state words of a message. -/
def sha1Words (msg : List Nat) : Nat × Nat × Nat × Nat × Nat :=
  (chunksOf 64 (padMsg msg)).foldl sha1Chunk
    (1732584193, 4023233417, 2562383102, 271733878, 3285377520)

/-- Big-endian 4-byte rendering of a 32-bit word. -/
def word4 (x : Nat) : List Nat := [w8 (x >>> 24), w8 (x >>> 16), w8 (x >>> 8), w8 x]

/-- `hashlib.sha1(msg).digest()`. -/
def sha1Bytes (msg : List Nat) : List Nat :=
  word4 (sha1Words msg).1 ++ word4 (sha1Words msg).2.1 ++
  word4 (sha1Words msg).2.2.1 ++ word4 (sha1Words msg).2.2.2.1 ++
  word4 (sha1Words msg).2.2.2.2

/-- `hashlib.sha1(msg).hexdigest()`. -/
def sha1Hex (msg : List Nat) : String := bytesToHex (sha1Bytes msg)

/-- `hmac.new(key, msg, sha1).digest()` (block size 64). -/
def hmacSha1Bytes (key msg : List Nat) : List Nat :=
  let k0 := if 64 < key.length then sha1Bytes key else key
  let kp := k0 ++ List.replicate (64 - k0.length) 0
  sha1Bytes ((kp.map (fun b => b ^^^ 92)) ++
    sha1Bytes ((kp.map (fun b => b ^^^ 54)) ++ msg))

/-- `hmac.new(key, msg, sha1).hexdigest()`. -/
def hmacSha1Hex (key msg : List Nat) : String :=
  bytesToHex (hmacSha1Bytes key msg)

/-! ## Percent-encoding (`urllib.parse.quote` with safe set `'-_.~'`) -/

/-- Bytes `urllib.parse.quote(s, '-_.~')` leaves unescaped: ASCII letters,
digits, and `_ . - ~` (the `always_safe` set plus the given safe set,
which adds nothing new). -/
def safeByte (b : Nat) : Bool :=
  decide ((65 ≤ b ∧ b ≤ 90) ∨ (97 ≤ b ∧ b ≤ 122) ∨ (48 ≤ b ∧ b ≤ 57) ∨
          b = 45 ∨ b = 95 ∨ b = 46 ∨ b = 126)

/-- Quote a single byte: kept verbatim if safe, else `%XY` upper-case hex. -/
def quoteByte (b : Nat) : List Char :=
  if safeByte b then [Char.ofNat b] else ['%', hexUpper (b / 16 % 16), hexUpper (b % 16)]

/-- `Auth._quote`: `urllib.parse.quote(s, '-_.~')` — percent-encode the UTF-8
bytes of `s`, leaving only unreserved bytes unescaped. -/
def quoteCos (s : String) : String :=
  String.mk ((strBytes s).flatMap quoteByte)

/-- `str.replace('+', '%2B')` on the character list. -/
def repPlusL (l : List Char) : List Char :=
  l.flatMap (fun c => if c = '+' then ['%', '2', 'B'] else [c])

/-- `s.replace('+', '%2B')`. -/
def replacePlus (s : String) : String := String.mk (repPlusL s.data)

/-- `urllib.parse.urlencode(query, quote_via=q)`: `&`-joined `k=v` pairs,
keys and values passed through `q`. -/
def urlencode (quoteVia : String → String) (query : List (String × String)) : String :=
  strJoin "&" (query.map (fun kv => quoteVia kv.1 ++ "=" ++ quoteVia kv.2))

/-! ## Python `sorted` on strings and on `(key, value)` pairs -/

/-- Strict code-point lexicographic comparison of character lists
(Python `str.__lt__`), computed on code points so that it evaluates. -/
def charLtB : List Char → List Char → Bool
  | [], [] => false
  | [], _ :: _ => true
  | _ :: _, [] => false
  | a :: as, b :: bs =>
    if a.toNat < b.toNat then true
    else if b.toNat < a.toNat then false
    else charLtB as bs

/-- Python `a < b` on strings. -/
def strLtB (a b : String) : Bool := charLtB a.data b.data

/-- Python `a <= b` on strings. -/
def strLeB (a b : String) : Bool := ! strLtB b a

/-- Python tuple comparison `(k, v) <= (k2, v2)` on string pairs. -/
def pairLeB (a b : String × String) : Bool :=
  strLtB a.1 b.1 || (a.1 == b.1 && strLeB a.2 b.2)

/-- `sorted(keys)` for strings (code-point lexicographic order). -/
def sortStrings (l : List String) : List String :=
  List.insertionSort (fun a b => strLeB a b = true) l

/-- `sorted(d.items())` for string dicts. -/
def sortPairs (l : List (String × String)) : List (String × String) :=
  List.insertionSort (fun a b => pairLeB a b = true) l

/-! ## Insertion-ordered dict model (CPython dict semantics) -/

/-- `d[k] = v`: overwrite in place if `k` is present (keeping its insertion
slot), otherwise append at the end. -/
def dictSet {α : Type} (d : List (String × α)) (k : String) (v : α) :
    List (String × α) :=
  if d.any (fun p => p.1 == k) then
    d.map (fun p => if p.1 == k then (k, v) else p)
  else d ++ [(k, v)]

/-- `d.get(k)` / `d[k]` lookup. -/
def dictGet {α : Type} (d : List (String × α)) (k : String) : Option α :=
  (d.find? (fun p => p.1 == k)).map Prod.snd

/-- `defaultdict(list)`: `d[k].append(v)`. -/
def mdictAppend {α : Type} (d : List (String × List α)) (k : String) (v : α) :
    List (String × List α) :=
  if d.any (fun p => p.1 == k) then
    d.map (fun p => if p.1 == k then (p.1, p.2 ++ [v]) else p)
  else d ++ [(k, [v])]

/-! ## The `Auth` signer (aiocos/auth.py) -/

structure Auth where
  secretid : String
  secretkey : String
  expire : Int

/-- `Auth._sha1`. -/
def Auth._sha1 (s : String) : String := sha1Hex (strBytes s)

/-- `Auth._hmac_sha1(self, s, key=None)`; `key = key or self.secretkey`
(both `None` and the empty string fall back to the secret key). -/
def Auth._hmac_sha1 (a : Auth) (s : String) (key : Option String) : String :=
  let k := match key with
    | none => a.secretkey
    | some k0 => if k0 = "" then a.secretkey else k0
  hmacSha1Hex (strBytes k) (strBytes s)

/-- The `'%d;%d' % (t - 60, t + self.expire)` value assigned to both
`q-sign-time` and `q-key-time` (auth.py line 56), with the sampled time
`t` made explicit. -/
def Auth.signTimeStr (a : Auth) (t : Int) : String :=
  toString (t - 60) ++ ";" ++ toString (t + a.expire)

/-- `';'.join(sorted(headers.keys()))` (auth.py line 57). -/
def headerListStr (headers : List (String × String)) : String :=
  strJoin ";" (sortStrings (headers.map Prod.fst))

/-- `';'.join(sorted(params.keys()))` (auth.py line 58). -/
def paramListStr (params : List (String × String)) : String :=
  strJoin ";" (sortStrings (params.map Prod.fst))

/-- `urlencode(sorted(params.items()), quote_via=self._quote).replace('+', '%2B')`
(auth.py lines 62-63). -/
def encodedParams (params : List (String × String)) : String :=
  replacePlus (urlencode quoteCos (sortPairs params))

/-- `urlencode(sorted(headers.items()), quote_via=self._quote)`
(auth.py lines 64-65). -/
def encodedHeaders (headers : List (String × String)) : String :=
  urlencode quoteCos (sortPairs headers)

/-- The canonical HTTP string `http_str` (auth.py lines 60-65): four lines
joined by newlines with a trailing newline. -/
def httpStr (method url : String) (params headers : List (String × String)) : String :=
  strJoin "\n" [method, url, encodedParams params, encodedHeaders headers] ++ "\n"

/-- The string-to-sign `s_str` (auth.py lines 66-68). -/
def strToSign (signTime http : String) : String :=
  strJoin "\n" ["sha1", signTime, sha1Hex (strBytes http)] ++ "\n"

/-- `skey = self._hmac_sha1(options['q-sign-time'])` (auth.py line 59). -/
def Auth.skey (a : Auth) (t : Int) : String :=
  a._hmac_sha1 (a.signTimeStr t) none

/-- `sig = self._hmac_sha1(s_str, skey)` (auth.py line 69). -/
def Auth.signature (a : Auth) (method url : String)
    (headers params : List (String × String)) (t : Int) : String :=
  a._hmac_sha1 (strToSign (a.signTimeStr t) (httpStr method url params headers))
    (some (a.skey t))

/-- `Auth.get_auth` (auth.py lines 45-72).  The `expired` argument is kept
because the source declares it (it is unused there as well: the body reads
`self.expire`); `t` is the value `time()` sampled at line 55. -/
def Auth.get_auth (a : Auth) (method url : String) (expired : Int)
    (headers params : List (String × String)) (t : Int) : String :=
  urlencode (fun x => x)
    [("q-sign-algorithm", "sha1"),
     ("q-ak", a.secretid),
     ("q-sign-time", a.signTimeStr t),
     ("q-key-time", a.signTimeStr t),
     ("q-header-list", headerListStr headers),
     ("q-url-param-list", paramListStr params),
     ("q-signature", a.signature method url headers params t)]

/-- `s.startswith(pre)`. -/
def strStartsWith (s pre : String) : Bool := pre.data.isPrefixOf s.data

/-- The predicate of `Auth._filter_headers`:
`lambda x: x == 'Host' or x.startswith('x')` (auth.py line 34). -/
def authFilterPred (k : String) : Bool :=
  k == "Host" || strStartsWith k "x"

/-- `str.lower()` (character-wise, ASCII case folding). -/
def strLower (s : String) : String := String.mk (s.data.map Char.toLower)

/-- `Auth._filter_headers` (auth.py lines 32-35): the dict comprehension
`{k.lower(): v for k, v in headers.items() if _filter(k)}`. -/
def Auth._filter_headers (headers : List (String × String)) :
    List (String × String) :=
  headers.foldl
    (fun acc kv => if authFilterPred kv.1 then dictSet acc (strLower kv.1) kv.2 else acc)
    []

/-! ## `CosConfig` (aiocos/utils.py lines 52-62) -/

structure CosConfig where
  secret_id : String
  secret_key : String
  region : String
  token : String
  auth_expire : Int

/-- `CosConfig.__init__`.  Faithful to the source: line 58 executes
`self.auth_expire = 100`, storing the literal `100` and ignoring the
`auth_expire` argument. -/
def CosConfig.init (Secret_id Secret_key Region Token : String)
    (auth_expire : Int) : CosConfig :=
  ⟨Secret_id, Secret_key, Region, Token, 100⟩

/-- `CosConfig.get_auth` (utils.py lines 60-62). -/
def CosConfig.get_auth (c : CosConfig) : Auth :=
  ⟨c.secret_id, c.secret_key, c.auth_expire⟩

/-! ## XML node trees and the regex scanner `XML_RE` (aiocos/utils.py) -/

/-- The tree values `xml2dict` produces and `dict2xml` consumes: a string
leaf, an insertion-ordered mapping, or a list (for repeatable tags). -/
inductive Node where
  | str (s : String)
  | dict (entries : List (String × Node))
  | list (elems : List Node)
deriving Repr

/-- A Python `\w` character (ASCII fragment: letters, digits, underscore). -/
def isWordChar (c : Char) : Bool := c.isAlphanum || c = '_'

/-- Python whitespace stripped by `str.strip()` (ASCII fragment). -/
def isPySpace (c : Char) : Bool :=
  c = ' ' || c = '\t' || c = '\n' || c = '\r' || c = '\x0b' || c = '\x0c'

/-- `str.strip()` on a character list. -/
def stripChars (l : List Char) : List Char :=
  ((l.dropWhile isPySpace).reverse.dropWhile isPySpace).reverse

/-- Greedy `\w+` span: the maximal word-character run and the rest. -/
def takeWord (l : List Char) : List Char × List Char :=
  (l.takeWhile isWordChar, l.dropWhile isWordChar)

/-- Lazy search (`[\s\S]+?`) for the closing sequence `close`: splits `l`
into the shortest (possibly empty) part before the first occurrence of
`close` and the remainder after it. -/
def findClose (close : List Char) : List Char → Option (List Char × List Char)
  | [] => none
  | c :: cs =>
    if close.isPrefixOf (c :: cs) then some ([], (c :: cs).drop close.length)
    else match findClose close cs with
      | some (pre, rest) => some (c :: pre, rest)
      | none => none

/-- Try to match `XML_RE = <(\w+)>([\s\S]+?)</\1>` anchored at the head of
`l`.  On success, returns the tag, the (non-empty, lazily minimal) content
and the rest of the input after the closing tag. -/
def tryMatchAt (l : List Char) : Option (String × List Char × List Char) :=
  match l with
  | '<' :: rest =>
    match takeWord rest with
    | ([], _) => none
    | (w, r1) =>
      match r1 with
      | '>' :: c :: cs =>
        match findClose ('<' :: '/' :: (w ++ ['>'])) cs with
        | some (pre, rest2) => some (String.mk w, c :: pre, rest2)
        | none => none
      | _ => none
  | _ => none

/-- Scan for non-overlapping matches left to right, advancing one character
on failure (the semantics of `re.findall`), with explicit fuel. -/
def scanAux : Nat → List Char → List (String × List Char)
  | 0, _ => []
  | _ + 1, [] => []
  | fuel + 1, c :: rest =>
    match tryMatchAt (c :: rest) with
    | some (t, content, rest2) => (t, content) :: scanAux fuel rest2
    | none => scanAux fuel rest

/-- `XML_RE.findall(s)`: list of `(tag, content)` matches. -/
def scanMatches (l : List Char) : List (String × List Char) :=
  scanAux l.length l

/-! ## `xml2dict` (aiocos/utils.py lines 179-192) -/

/-- The accumulation loop of `xml2dict`: `ret[k] = dec(v)` for tags not in
`lst`, `lst_dict[k].append(dec(v))` for tags in `lst`. -/
def xml2dictLoop (dec : List Char → Node) (lst : List String) :
    List (String × List Char) →
    List (String × Node) × List (String × List Node) →
    List (String × Node) × List (String × List Node)
  | [], st => st
  | (k, v) :: rest, (ret, lstd) =>
    if k ∈ lst then xml2dictLoop dec lst rest (ret, mdictAppend lstd k (dec v))
    else xml2dictLoop dec lst rest (dictSet ret k (dec v), lstd)

/-- `ret.update(lst_dict)`: write each repeatable tag's collected list. -/
def dictUpdate (ret : List (String × Node)) (lstd : List (String × List Node)) :
    List (String × Node) :=
  lstd.foldl (fun r kv => dictSet r kv.1 (Node.list kv.2)) ret

/-- `xml2dict` body with explicit recursion fuel (the recursion is on
strictly shorter content substrings, so `length + 1` fuel suffices). -/
def xml2dictAux : Nat → List Char → List String → Node
  | 0, xml, _ => Node.str (String.mk (stripChars xml))
  | fuel + 1, xml, lst =>
    match scanMatches (stripChars xml) with
    | [] => Node.str (String.mk (stripChars xml))
    | root =>
      Node.dict (dictUpdate
        (xml2dictLoop (fun v => xml2dictAux fuel v lst) lst root ([], [])).1
        (xml2dictLoop (fun v => xml2dictAux fuel v lst) lst root ([], [])).2)

/-- `xml2dict(xml, lst=[])` (utils.py lines 179-192). -/
def xml2dict (xml : String) (lst : List String) : Node :=
  xml2dictAux (xml.data.length + 1) xml.data lst

/-- The top-level matches `root = XML_RE.findall(xml.strip())` of a document. -/
def topMatches (xml : String) : List (String × List Char) :=
  scanMatches (stripChars xml.data)

/-- The contents of the top-level occurrences of tag `k` in document order. -/
def occs (xml : String) (k : String) : List (List Char) :=
  ((topMatches xml).filter (fun p => p.1 == k)).map Prod.snd

/-- Last element of a list, if any. -/
def lastOpt {α : Type} : List α → Option α
  | [] => none
  | [a] => some a
  | _ :: b :: rest => lastOpt (b :: rest)

/-! ## `dict2xml` (aiocos/utils.py lines 163-177) -/

mutual

/-- `dict2xml(d, root, rules)` (utils.py lines 163-177).  The source
iterates `d` as a mapping, so a non-mapping argument raises `TypeError`;
that failure is modelled as `none`.  Recursive calls (`dict2xml(d[el],
root=el)` and the per-element calls for list values) pass no `rules`,
i.e. the default `{}`. -/
def dict2xml (n : Node) (root : String) (rules : List (String × (Node → String))) :
    Option String :=
  match n with
  | Node.dict d =>
    (encEntries d rules).map
      (fun body => "<" ++ root ++ ">" ++ body ++ "</" ++ root ++ ">")
  | _ => none

/-- Serialize the entries of a mapping in insertion order. -/
def encEntries (d : List (String × Node)) (rules : List (String × (Node → String))) :
    Option String :=
  match d with
  | [] => some ""
  | (el, v) :: rest =>
    match encValue el v rules, encEntries rest rules with
    | some s, some srest => some (s ++ srest)
    | _, _ => none

/-- Serialize one value: rule override, nested mapping, list of nodes, or
string leaf. -/
def encValue (el : String) (v : Node) (rules : List (String × (Node → String))) :
    Option String :=
  match dictGet rules el with
  | some rule => some (rule v)
  | none =>
    match v with
    | Node.dict sub => dict2xml (Node.dict sub) el []
    | Node.list xs => encList el xs
    | Node.str s => some ("<" ++ el ++ ">" ++ s ++ "</" ++ el ++ ">")

/-- `[dict2xml(x, el) for x in lst]`, concatenated. -/
def encList (el : String) (xs : List Node) : Option String :=
  match xs with
  | [] => some ""
  | x :: rest =>
    match dict2xml x el [], encList el rest with
    | some s, some srest => some (s ++ srest)
    | _, _ => none

end

/-! ## Service errors (aiocos/errors.py) -/

/-- Try to match `ERROR_RE = <(\w+)>([^<]+)</\1>` anchored at the head of
`l`: greedy `[^<]+` content (non-empty, no `<`) followed by the exact
closing tag. -/
def tryMatchLeaf (l : List Char) : Option (String × String × List Char) :=
  match l with
  | '<' :: rest =>
    match takeWord rest with
    | ([], _) => none
    | (w, r1) =>
      match r1 with
      | '>' :: r2 =>
        match r2.takeWhile (fun c => c != '<') with
        | [] => none
        | content =>
          let r3 := r2.dropWhile (fun c => c != '<')
          let close := '<' :: '/' :: (w ++ ['>'])
          if close.isPrefixOf r3 then
            some (String.mk w, String.mk content, r3.drop close.length)
          else none
      | _ => none
  | _ => none

/-- `re.findall` for `ERROR_RE`, with explicit fuel. -/
def errScanAux : Nat → List Char → List (String × String)
  | 0, _ => []
  | _ + 1, [] => []
  | fuel + 1, c :: rest =>
    match tryMatchLeaf (c :: rest) with
    | some (t, content, rest2) => (t, content) :: errScanAux fuel rest2
    | none => errScanAux fuel rest

/-- `ERROR_RE.findall(msg)`. -/
def errorFindall (msg : String) : List (String × String) :=
  errScanAux msg.data.length msg.data

/-- `dict(pairs)`: sequential insertion, later duplicates overwrite. -/
def dictOfPairs (l : List (String × String)) : List (String × String) :=
  l.foldl (fun d kv => dictSet d kv.1 kv.2) []

structure CosServiceError where
  _msg : String
  _info : List (String × String)
  _http_status : Nat

/-- `CosServiceError.__init__(msg, status)` (errors.py lines 13-17). -/
def CosServiceError.init (msg : String) (status : Nat) : CosServiceError :=
  ⟨msg, dictOfPairs (errorFindall msg), status⟩

def CosServiceError.get_origin_msg (e : CosServiceError) : String := e._msg

def CosServiceError.get_digest_msg (e : CosServiceError) : List (String × String) :=
  e._info

def CosServiceError.get_status_code (e : CosServiceError) : Nat := e._http_status

/-- `self._info['Code']`: a missing key raises `KeyError`, modelled as
`Except.error "KeyError"`. -/
def infoItem (e : CosServiceError) (k : String) : Except String String :=
  match dictGet e._info k with
  | some v => Except.ok v
  | none => Except.error "KeyError"

def CosServiceError.get_error_code (e : CosServiceError) : Except String String :=
  infoItem e "Code"

def CosServiceError.get_error_msg (e : CosServiceError) : Except String String :=
  infoItem e "Message"

def CosServiceError.get_trace_id (e : CosServiceError) : Except String String :=
  infoItem e "TraceId"

def CosServiceError.get_request_id (e : CosServiceError) : Except String String :=
  infoItem e "RequestId"

def CosServiceError.get_resource_location (e : CosServiceError) : Except String String :=
  infoItem e "Resource"

/-- Key of the first entry of a dict node (discriminator used below). -/
def firstKey : Node → String
  | Node.dict ((k, _) :: _) => k
  | _ => ""

/-! # Theorems -/

/-! ## Auxiliary facts about the hash primitives -/

theorem bytesToHex_cons_ne (b : Nat) (rest : List Nat) : bytesToHex (b :: rest) ≠ "" := by
  intro h
  have h2 := congrArg String.data h
  simp [bytesToHex] at h2

theorem hmacSha1Bytes_cons (key msg : List Nat) :
    ∃ b rest, hmacSha1Bytes key msg = b :: rest := ⟨_, _, rfl⟩

theorem hmacSha1Hex_ne_empty (key msg : List Nat) : hmacSha1Hex key msg ≠ "" := by
  obtain ⟨b, rest, hb⟩ := hmacSha1Bytes_cons key msg
  unfold hmacSha1Hex
  rw [hb]
  exact bytesToHex_cons_ne b rest

/-! ## C1: the HMAC-SHA1 signature chain -/

/-- C1: for every method, url path, headers mapping, params mapping, secret
key and sampled time, the signature produced by `get_auth` equals
`hex(HMAC_SHA1(key = hex(HMAC_SHA1(key = secret_key, message = sign_time)),
message = "sha1\n" + sign_time + "\n" + hex(SHA1(http_string)) + "\n"))`
where `http_string` is the four-line canonical request. -/
theorem auth_signature_hmac_chain (a : Auth) (method url : String)
    (headers params : List (String × String)) (t : Int) :
    a.signature method url headers params t =
      hmacSha1Hex
        (strBytes (hmacSha1Hex (strBytes a.secretkey) (strBytes (a.signTimeStr t))))
        (strBytes ("sha1" ++ "\n" ++ a.signTimeStr t ++ "\n" ++
                   sha1Hex (strBytes (httpStr method url params headers)) ++ "\n")) := by
  unfold Auth.signature Auth.skey strToSign strJoin
  simp only [List.foldl, Auth._hmac_sha1]
  rw [if_neg (hmacSha1Hex_ne_empty _ _)]

/-! ## C2: the wire format of the Authorization value -/

/-- C2: for every input, `get_auth` returns exactly the `&`-joined
`key=value` serialization — with no percent-encoding of any key or value —
of the seven fields in this fixed order: `q-sign-algorithm=sha1`, `q-ak`,
`q-sign-time`, `q-key-time`, `q-header-list` (sorted header names,
`;`-joined), `q-url-param-list` (sorted param names, `;`-joined),
`q-signature`. -/
theorem auth_get_auth_wire_format (a : Auth) (method url : String) (expired : Int)
    (headers params : List (String × String)) (t : Int) :
    a.get_auth method url expired headers params t =
      strJoin "&"
        ["q-sign-algorithm=sha1",
         "q-ak" ++ "=" ++ a.secretid,
         "q-sign-time" ++ "=" ++ a.signTimeStr t,
         "q-key-time" ++ "=" ++ a.signTimeStr t,
         "q-header-list" ++ "=" ++ strJoin ";" (sortStrings (headers.map Prod.fst)),
         "q-url-param-list" ++ "=" ++ strJoin ";" (sortStrings (params.map Prod.fst)),
         "q-signature" ++ "=" ++ a.signature method url headers params t] := rfl

/-! ## C4: the time window and the `CosConfig` expiry (code bug) -/

/-- C4 (code bug demonstration): the `q-sign-time`/`q-key-time` value is
`"{t-60};{t+expire}"` — with `t = 1000` and expiry `100` it is
`"940;1100"` — but `CosConfig.__init__` stores the literal `100` instead
of its `auth_expire` argument, so an `Auth` built from
`CosConfig(..., auth_expire=200)` still has expiry `100` and still signs
the window `"940;1100"` at `t = 1000`, not `"940;1200"`. -/
theorem cosconfig_auth_expire_hardcoded :
    Auth.signTimeStr ⟨"id", "key", 100⟩ 1000 = "940;1100" ∧
    (CosConfig.init "id" "key" "region" "" 200).get_auth = Auth.mk "id" "key" 100 ∧
    ((CosConfig.init "id" "key" "region" "" 200).get_auth).expire = 100 ∧
    Auth.signTimeStr ((CosConfig.init "id" "key" "region" "" 200).get_auth) 1000 =
      "940;1100" := by
  refine ⟨rfl, rfl, rfl, rfl⟩

/-! ## C6: percent-encoding of the params line -/

theorem toNat_ofNat_valid (n : Nat) (h : n.isValidChar) : (Char.ofNat n).toNat = n := by
  simp only [Char.ofNat, h, dif_pos, Char.ofNatAux, Char.toNat]
  simp [UInt32.toNat]

theorem hexUpper_ne_plus (m : Nat) (hm : m ≤ 15) : hexUpper m ≠ '+' := by
  intro h
  have h2 := congrArg Char.toNat h
  unfold hexUpper at h2
  rw [show ('+').toNat = 43 from rfl] at h2
  split at h2 <;>
    rw [toNat_ofNat_valid _ (Or.inl (by omega))] at h2 <;> omega

theorem quoteByte_ne_plus (b : Nat) (c : Char) (hc : c ∈ quoteByte b) : c ≠ '+' := by
  unfold quoteByte at hc
  split at hc
  case isTrue hs =>
    simp only [List.mem_singleton] at hc
    subst hc
    intro h
    have hs2 := of_decide_eq_true hs
    have hb : b ≤ 126 := by rcases hs2 with h1 | h1 | h1 | h1 | h1 | h1 | h1 <;> omega
    have h2 := congrArg Char.toNat h
    rw [toNat_ofNat_valid _ (Or.inl (by omega)), show ('+').toNat = 43 from rfl] at h2
    have hb43 : b = 43 := h2
    subst hb43
    exact absurd hs (by decide)
  case isFalse =>
    simp only [List.mem_cons, List.not_mem_nil, or_false] at hc
    rcases hc with h | h | h
    · subst h; decide
    · subst h; exact hexUpper_ne_plus _ (Nat.le_of_lt_succ (Nat.mod_lt _ (by omega)))
    · subst h; exact hexUpper_ne_plus _ (Nat.le_of_lt_succ (Nat.mod_lt _ (by omega)))

theorem quoteCos_no_plus (s : String) (c : Char) (hc : c ∈ (quoteCos s).data) : c ≠ '+' := by
  simp only [quoteCos, List.mem_flatMap] at hc
  obtain ⟨b, _, hb⟩ := hc
  exact quoteByte_ne_plus b c hb

theorem repPlusL_of_no_plus (l : List Char) (h : ∀ c ∈ l, c ≠ '+') : repPlusL l = l := by
  induction l with
  | nil => rfl
  | cons c rest ih =>
    unfold repPlusL
    simp only [List.flatMap_cons]
    rw [if_neg (h c (List.mem_cons_self c rest))]
    have := ih (fun d hd => h d (List.mem_cons_of_mem c hd))
    unfold repPlusL at this
    rw [this]
    rfl

theorem replacePlus_append (a b : String) :
    replacePlus (a ++ b) = replacePlus a ++ replacePlus b := by
  cases a with | mk la =>
  cases b with | mk lb =>
  show String.mk (repPlusL (la ++ lb)) = String.mk (repPlusL la ++ repPlusL lb)
  rw [repPlusL, List.flatMap_append]
  rfl

theorem replacePlus_quoteCos (s : String) : replacePlus (quoteCos s) = quoteCos s := by
  unfold replacePlus
  rw [repPlusL_of_no_plus _ (quoteCos_no_plus s)]

/-- C6: in the canonical HTTP string's encoded param line each key and value
is percent-encoded character-wise; a literal space is rendered `%20`
(never `+`), a literal `+` is rendered `%2B`, the characters `-_.~` stay
unescaped, and the encoder output never contains a `+`. -/
theorem param_encoding_space_plus_unreserved :
    (∀ k v : String, encodedParams [(k, v)] = quoteCos k ++ "=" ++ quoteCos v) ∧
    quoteCos " " = "%20" ∧ quoteCos "+" = "%2B" ∧ quoteCos "-_.~" = "-_.~" ∧
    quoteCos "a b+c" = "a%20b%2Bc" ∧
    (∀ s : String, ((quoteCos s).data.all (fun c => c != '+')) = true) := by
  refine ⟨?_, rfl, rfl, rfl, rfl, ?_⟩
  · intro k v
    show replacePlus (quoteCos k ++ "=" ++ quoteCos v) = _
    rw [replacePlus_append, replacePlus_append, replacePlus_quoteCos,
        replacePlus_quoteCos]
    rfl
  · intro s
    simp only [List.all_eq_true]
    intro c hc
    simpa using quoteCos_no_plus s c hc

/-! ## C3: header filtering (corrected: the filter is case-sensitive) -/

/-- C3 counterexample: the claim says a header named `X-Custom` is included
in the signed set; in the code `_filter = lambda x: x == 'Host' or
x.startswith('x')` is case-sensitive, so `X-Custom` is dropped and the
filtered mapping is empty. -/
theorem filter_headers_xcustom_excluded :
    Auth._filter_headers [("X-Custom", "v")] = [] ∧
    dictGet (Auth._filter_headers [("X-Custom", "v")]) "x-custom" = none := ⟨rfl, rfl⟩

theorem map_fst_overwrite {α : Type} (d : List (String × α)) (k0 : String) (v : α) :
    (d.map (fun p => if p.1 == k0 then (k0, v) else p)).map Prod.fst =
      d.map Prod.fst := by
  induction d with
  | nil => rfl
  | cons p rest ih =>
    simp only [List.map_cons, ih]
    congr 1
    by_cases hp : p.1 == k0
    · rw [if_pos hp]
      simp only [beq_iff_eq] at hp
      exact hp.symm
    · rw [if_neg hp]

theorem dictGet_keys_mem {α : Type} (d : List (String × α)) (k0 k : String) (v : α) :
    k ∈ (dictSet d k0 v).map Prod.fst ↔ k ∈ d.map Prod.fst ∨ k = k0 := by
  unfold dictSet
  split
  case isTrue hAny =>
    rw [map_fst_overwrite]
    constructor
    · exact Or.inl
    · rintro (h | h)
      · exact h
      · subst h
        simp only [List.any_eq_true] at hAny
        obtain ⟨p, hp, hpk⟩ := hAny
        simp only [beq_iff_eq] at hpk
        subst hpk
        exact List.mem_map_of_mem Prod.fst hp
  case isFalse =>
    simp [List.mem_append]

theorem filter_headers_keys_aux (k : String) (hs : List (String × String)) :
    ∀ acc : List (String × String),
      (k ∈ (hs.foldl (fun acc kv =>
          if authFilterPred kv.1 then dictSet acc (strLower kv.1) kv.2 else acc) acc).map
            Prod.fst ↔
        k ∈ acc.map Prod.fst ∨
          ∃ p, p ∈ hs ∧ authFilterPred p.1 = true ∧ k = strLower p.1) := by
  induction hs with
  | nil => intro acc; simp
  | cons p rest ih =>
    intro acc
    simp only [List.foldl_cons]
    by_cases hp : authFilterPred p.1
    · rw [if_pos hp, ih, dictGet_keys_mem]
      constructor
      · rintro ((h | h) | ⟨q, hq, hfq, hkq⟩)
        · exact Or.inl h
        · exact Or.inr ⟨p, List.mem_cons_self p rest, hp, h⟩
        · exact Or.inr ⟨q, List.mem_cons_of_mem p hq, hfq, hkq⟩
      · rintro (h | ⟨q, hq, hfq, hkq⟩)
        · exact Or.inl (Or.inl h)
        · rcases List.mem_cons.mp hq with rfl | hq2
          · exact Or.inl (Or.inr hkq)
          · exact Or.inr ⟨q, hq2, hfq, hkq⟩
    · rw [if_neg hp, ih]
      constructor
      · rintro (h | ⟨q, hq, hfq, hkq⟩)
        · exact Or.inl h
        · exact Or.inr ⟨q, List.mem_cons_of_mem p hq, hfq, hkq⟩
      · rintro (h | ⟨q, hq, hfq, hkq⟩)
        · exact Or.inl h
        · rcases List.mem_cons.mp hq with rfl | hq2
          · exact absurd hfq hp
          · exact Or.inr ⟨q, hq2, hfq, hkq⟩

/-- C3 amended: the signed header set contains exactly the lower-cased names
of the input headers whose name is exactly `Host` (case-sensitively) or
starts with a lower-case `x`; in particular `X-Custom` and `Authorization`
are both excluded, while `Host` and `x-cos-acl` are kept (lower-cased). -/
theorem filter_headers_characterization :
    (∀ (hs : List (String × String)) (k : String),
      k ∈ (Auth._filter_headers hs).map Prod.fst ↔
        ∃ p, p ∈ hs ∧ (p.1 = "Host" ∨ strStartsWith p.1 "x" = true) ∧
          k = strLower p.1) ∧
    Auth._filter_headers [("X-Custom", "v")] = [] ∧
    Auth._filter_headers [("Authorization", "v")] = [] ∧
    Auth._filter_headers [("Host", "h"), ("x-cos-acl", "a")] =
      [("host", "h"), ("x-cos-acl", "a")] := by
  refine ⟨?_, rfl, rfl, rfl⟩
  intro hs k
  rw [Auth._filter_headers, filter_headers_keys_aux]
  simp only [List.map_nil, List.not_mem_nil, false_or]
  constructor
  · rintro ⟨p, hp, hfp, hkp⟩
    refine ⟨p, hp, ?_, hkp⟩
    unfold authFilterPred at hfp
    rcases Bool.or_eq_true_iff.mp hfp with h | h
    · simp only [beq_iff_eq] at h
      exact Or.inl h
    · exact Or.inr h
  · rintro ⟨p, hp, hfp, hkp⟩
    refine ⟨p, hp, ?_, hkp⟩
    unfold authFilterPred
    rcases hfp with h | h
    · exact Bool.or_eq_true_iff.mpr (Or.inl (by simp [h]))
    · exact Bool.or_eq_true_iff.mpr (Or.inr h)

/-! ## C5: sorted name lists and insertion-order invariance -/

theorem charLt_iff (a b : Char) : (a.toNat < b.toNat) ↔ @LT.lt Char Char.instLT a b :=
  Iff.rfl

theorem charEq_of_toNat (a b : Char) (h : a.toNat = b.toNat) : a = b :=
  Char.ext (UInt32.ext h)

theorem charLtB_iff : ∀ x y : List Char, charLtB x y = true ↔ x < y := by
  intro x
  induction x with
  | nil =>
    intro y
    cases y with
    | nil => exact ⟨fun h => (nomatch h), fun h => (nomatch h)⟩
    | cons b bs => exact ⟨fun _ => List.Lex.nil, fun _ => rfl⟩
  | cons a as ih =>
    intro y
    cases y with
    | nil => exact ⟨fun h => (nomatch h), fun h => (nomatch h)⟩
    | cons b bs =>
      simp only [charLtB]
      by_cases h1 : a.toNat < b.toNat
      · rw [if_pos h1]
        exact ⟨fun _ => List.Lex.rel ((charLt_iff a b).mp h1), fun _ => rfl⟩
      · rw [if_neg h1]
        by_cases h2 : b.toNat < a.toNat
        · rw [if_pos h2]
          constructor
          · intro h; exact nomatch h
          · intro h
            exfalso
            cases h with
            | cons h3 => omega
            | rel h3 => exact h1 ((charLt_iff a b).mpr h3)
        · rw [if_neg h2]
          have hab : a = b := charEq_of_toNat a b (by omega)
          subst hab
          rw [ih bs]
          constructor
          · exact fun h => List.Lex.cons h
          · intro h
            cases h with
            | cons h3 => exact h3
            | rel h3 => exact absurd ((charLt_iff a a).mpr h3) (by omega)

theorem strLtB_iff (a b : String) : strLtB a b = true ↔ a < b := by
  rw [String.lt_iff_toList_lt]
  exact charLtB_iff a.data b.data

theorem strLeB_iff (a b : String) : strLeB a b = true ↔ a ≤ b := by
  rw [String.le_iff_toList_le, ← not_lt]
  unfold strLeB
  rw [Bool.not_eq_true', Bool.eq_false_iff]
  exact not_congr ((strLtB_iff b a).trans String.lt_iff_toList_lt)

instance : IsTotal String (fun a b => strLeB a b = true) where
  total a b := by
    simp only [strLeB_iff]
    exact le_total a b

instance : IsTrans String (fun a b => strLeB a b = true) where
  trans a b c hab hbc := by
    rw [strLeB_iff] at *
    exact le_trans hab hbc

instance : IsAntisymm String (fun a b => strLeB a b = true) where
  antisymm a b hab hba := by
    rw [strLeB_iff] at *
    exact le_antisymm hab hba

theorem pairLeB_iff (a b : String × String) :
    pairLeB a b = true ↔ (a.1 < b.1 ∨ (a.1 = b.1 ∧ a.2 ≤ b.2)) := by
  unfold pairLeB
  rw [Bool.or_eq_true, Bool.and_eq_true, strLtB_iff, strLeB_iff, beq_iff_eq]

instance : IsTotal (String × String) (fun a b => pairLeB a b = true) where
  total a b := by
    simp only [pairLeB_iff]
    rcases lt_trichotomy a.1 b.1 with h | h | h
    · exact Or.inl (Or.inl h)
    · rcases le_total a.2 b.2 with h2 | h2
      · exact Or.inl (Or.inr ⟨h, h2⟩)
      · exact Or.inr (Or.inr ⟨h.symm, h2⟩)
    · exact Or.inr (Or.inl h)

instance : IsTrans (String × String) (fun a b => pairLeB a b = true) where
  trans a b c hab hbc := by
    rw [pairLeB_iff] at *
    rcases hab with h1 | ⟨h1, h1v⟩
    · rcases hbc with h2 | ⟨h2, _⟩
      · exact Or.inl (h1.trans h2)
      · exact Or.inl (h2 ▸ h1)
    · rcases hbc with h2 | ⟨h2, h2v⟩
      · exact Or.inl (h1 ▸ h2)
      · exact Or.inr ⟨h1.trans h2, h1v.trans h2v⟩

instance : IsAntisymm (String × String) (fun a b => pairLeB a b = true) where
  antisymm a b hab hba := by
    rw [pairLeB_iff] at *
    rcases hab with h1 | ⟨h1, h1v⟩
    · rcases hba with h2 | ⟨h2, _⟩
      · exact absurd (h1.trans h2) (lt_irrefl _)
      · exact absurd h1 (h2 ▸ lt_irrefl _)
    · rcases hba with h2 | ⟨_, h2v⟩
      · exact absurd h2 (h1 ▸ lt_irrefl _)
      · exact Prod.ext h1 (le_antisymm h1v h2v)

theorem sortStrings_perm_eq {l l2 : List String} (h : l.Perm l2) :
    sortStrings l = sortStrings l2 :=
  List.eq_of_perm_of_sorted
    ((List.perm_insertionSort _ l).trans (h.trans (List.perm_insertionSort _ l2).symm))
    (List.sorted_insertionSort _ l) (List.sorted_insertionSort _ l2)

theorem sortPairs_perm_eq {l l2 : List (String × String)} (h : l.Perm l2) :
    sortPairs l = sortPairs l2 :=
  List.eq_of_perm_of_sorted
    ((List.perm_insertionSort _ l).trans (h.trans (List.perm_insertionSort _ l2).symm))
    (List.sorted_insertionSort _ l) (List.sorted_insertionSort _ l2)

/-- C5: `q-header-list` and `q-url-param-list` are the lexicographically
sorted `;`-joins of the header and param names, the sorted name lists are
genuinely sorted by code point, the whole signing output is invariant under
any permutation of the insertion order of the headers and params mappings,
and params `{"b": "2", "a": "1"}` produce `q-url-param-list=a;b`. -/
theorem get_auth_sorted_and_order_invariant :
    (∀ hs : List (String × String),
      headerListStr hs = strJoin ";" (sortStrings (hs.map Prod.fst))) ∧
    (∀ ps : List (String × String),
      paramListStr ps = strJoin ";" (sortStrings (ps.map Prod.fst))) ∧
    (∀ l : List String, List.Sorted (fun a b => a ≤ b) (sortStrings l)) ∧
    (∀ (a : Auth) (method url : String) (expired : Int)
       (hs hs2 ps ps2 : List (String × String)) (t : Int),
      hs.Perm hs2 → ps.Perm ps2 →
      a.get_auth method url expired hs ps t = a.get_auth method url expired hs2 ps2 t) ∧
    paramListStr [("b", "2"), ("a", "1")] = "a;b" := by
  refine ⟨fun _ => rfl, fun _ => rfl, ?_, ?_, rfl⟩
  · intro l
    exact (List.sorted_insertionSort _ l).imp (fun h => (strLeB_iff _ _).mp h)
  · intro a method url expired hs hs2 ps ps2 t hh hp
    have e1 : sortStrings (hs.map Prod.fst) = sortStrings (hs2.map Prod.fst) :=
      sortStrings_perm_eq (hh.map Prod.fst)
    have e2 : sortStrings (ps.map Prod.fst) = sortStrings (ps2.map Prod.fst) :=
      sortStrings_perm_eq (hp.map Prod.fst)
    have e3 : sortPairs hs = sortPairs hs2 := sortPairs_perm_eq hh
    have e4 : sortPairs ps = sortPairs ps2 := sortPairs_perm_eq hp
    simp only [Auth.get_auth, Auth.signature, Auth.skey, strToSign, httpStr,
      encodedParams, encodedHeaders, headerListStr, paramListStr, e1, e2, e3, e4]

/-- Witness for `get_auth_sorted_and_order_invariant`: the permutation
hypotheses hold for the concrete reordered params `{"b": "2", "a": "1"}` /
`{"a": "1", "b": "2"}`, and the signing output coincides on them. -/
theorem get_auth_sorted_and_order_invariant_witness :
    ([("host", "h")] : List (String × String)).Perm [("host", "h")] ∧
    ([("b", "2"), ("a", "1")] : List (String × String)).Perm [("a", "1"), ("b", "2")] ∧
    Auth.get_auth ⟨"ak", "sk", 100⟩ "get" "/p" 100 [("host", "h")]
        [("b", "2"), ("a", "1")] 1000 =
      Auth.get_auth ⟨"ak", "sk", 100⟩ "get" "/p" 100 [("host", "h")]
        [("a", "1"), ("b", "2")] 1000 :=
  ⟨by decide, by decide,
   get_auth_sorted_and_order_invariant.2.2.2.1 ⟨"ak", "sk", 100⟩ "get" "/p" 100
     [("host", "h")] [("host", "h")] [("b", "2"), ("a", "1")] [("a", "1"), ("b", "2")]
     1000 (by decide) (by decide)⟩

/-! ## C7: the XML round-trip (corrected: the result is wrapped in the root) -/

/-- C7 counterexample: decoding the encoding of
`{"Rule": [{"ID": "1"}, {"ID": "2"}]}` with root `LifecycleConfiguration`
and repeatable set `{"Rule"}` does not reconstruct the node itself — the
reconstruction sits under the root key. -/
theorem xml_roundtrip_not_identity :
    dict2xml
        (Node.dict [("Rule", Node.list [Node.dict [("ID", Node.str "1")],
                                        Node.dict [("ID", Node.str "2")]])])
        "LifecycleConfiguration" [] =
      some ("<LifecycleConfiguration><Rule><ID>1</ID></Rule><Rule><ID>2</ID></Rule>" ++
            "</LifecycleConfiguration>") ∧
    ¬ (xml2dict ("<LifecycleConfiguration><Rule><ID>1</ID></Rule><Rule><ID>2</ID></Rule>" ++
            "</LifecycleConfiguration>") ["Rule"] =
        Node.dict [("Rule", Node.list [Node.dict [("ID", Node.str "1")],
                                       Node.dict [("ID", Node.str "2")]])]) := by
  refine ⟨by simp [dict2xml, encEntries, encValue, encList, dictGet], ?_⟩
  intro h
  have h2 := congrArg firstKey h
  exact absurd h2 (by decide)

/-- C7 amended: `decode(encode(node, root), lst)` wraps the reconstruction
under the root tag: for the example node the result is the single-key
mapping `{"LifecycleConfiguration": {"Rule": [{"ID": "1"}, {"ID": "2"}]}}`,
whose value at the root key reproduces the original list of two
mappings. -/
theorem xml_roundtrip_under_root_key :
    dict2xml
        (Node.dict [("Rule", Node.list [Node.dict [("ID", Node.str "1")],
                                        Node.dict [("ID", Node.str "2")]])])
        "LifecycleConfiguration" [] =
      some ("<LifecycleConfiguration><Rule><ID>1</ID></Rule><Rule><ID>2</ID></Rule>" ++
            "</LifecycleConfiguration>") ∧
    xml2dict ("<LifecycleConfiguration><Rule><ID>1</ID></Rule><Rule><ID>2</ID></Rule>" ++
            "</LifecycleConfiguration>") ["Rule"] =
      Node.dict [("LifecycleConfiguration",
        Node.dict [("Rule", Node.list [Node.dict [("ID", Node.str "1")],
                                       Node.dict [("ID", Node.str "2")]])])] ∧
    dictGet [("LifecycleConfiguration",
        Node.dict [("Rule", Node.list [Node.dict [("ID", Node.str "1")],
                                       Node.dict [("ID", Node.str "2")]])])]
        "LifecycleConfiguration" =
      some (Node.dict [("Rule", Node.list [Node.dict [("ID", Node.str "1")],
                                           Node.dict [("ID", Node.str "2")]])]) :=
  ⟨by simp [dict2xml, encEntries, encValue, encList, dictGet], rfl, rfl⟩

/-! ## C9: service-error parsing (corrected: absent fields raise) -/

/-- C9 counterexample: the accessors are not optional — on a body without a
`TraceId` element, `get_trace_id` raises `KeyError` (modelled as
`Except.error`) instead of yielding an absent value. -/
theorem service_error_accessor_raises :
    (CosServiceError.init "<Error><Code>NoSuchKey</Code><Message>m</Message></Error>"
        404).get_trace_id = Except.error "KeyError" := rfl

/-- C9 amended: a `CosServiceError` built from a response body and status
exposes the status code, the raw body and the `<Tag>value</Tag>` leaf
pairs; for the example body the code accessor returns `"NoSuchKey"`, the
message accessor returns `"m"` and the status accessor returns `404`,
while the accessors for the omitted trace id, request id and resource
raise `KeyError` rather than returning an absent value. -/
theorem service_error_fields :
    (CosServiceError.init "<Error><Code>NoSuchKey</Code><Message>m</Message></Error>"
        404).get_status_code = 404 ∧
    (CosServiceError.init "<Error><Code>NoSuchKey</Code><Message>m</Message></Error>"
        404).get_origin_msg = "<Error><Code>NoSuchKey</Code><Message>m</Message></Error>" ∧
    (CosServiceError.init "<Error><Code>NoSuchKey</Code><Message>m</Message></Error>"
        404).get_digest_msg = [("Code", "NoSuchKey"), ("Message", "m")] ∧
    (CosServiceError.init "<Error><Code>NoSuchKey</Code><Message>m</Message></Error>"
        404).get_error_code = Except.ok "NoSuchKey" ∧
    (CosServiceError.init "<Error><Code>NoSuchKey</Code><Message>m</Message></Error>"
        404).get_error_msg = Except.ok "m" ∧
    (CosServiceError.init "<Error><Code>NoSuchKey</Code><Message>m</Message></Error>"
        404).get_trace_id = Except.error "KeyError" ∧
    (CosServiceError.init "<Error><Code>NoSuchKey</Code><Message>m</Message></Error>"
        404).get_request_id = Except.error "KeyError" ∧
    (CosServiceError.init "<Error><Code>NoSuchKey</Code><Message>m</Message></Error>"
        404).get_resource_location = Except.error "KeyError" :=
  ⟨rfl, rfl, rfl, rfl, rfl, rfl, rfl, rfl⟩

/-! ## Structure of the regex scanner -/

theorem findClose_len (close : List Char) :
    ∀ l pre rest, findClose close l = some (pre, rest) →
      l.length = pre.length + close.length + rest.length := by
  intro l
  induction l with
  | nil => intro pre rest h; simp [findClose] at h
  | cons c cs ih =>
    intro pre rest h
    unfold findClose at h
    split at h
    case isTrue hp =>
      simp only [Option.some.injEq, Prod.mk.injEq] at h
      obtain ⟨h1, h2⟩ := h
      subst h1
      subst h2
      have hle : close.length ≤ (c :: cs).length :=
        (List.isPrefixOf_iff_prefix.mp hp).length_le
      simp only [List.length_drop, List.length_nil]
      omega
    case isFalse hp =>
      cases hfc : findClose close cs with
      | none => rw [hfc] at h; simp at h
      | some pr =>
        obtain ⟨p2, r2⟩ := pr
        rw [hfc] at h
        simp only [Option.some.injEq, Prod.mk.injEq] at h
        obtain ⟨h1, h2⟩ := h
        subst h1
        subst h2
        have h3 := ih p2 r2 hfc
        simp only [List.length_cons]
        omega

theorem tryMatchAt_some :
    ∀ l t c r, tryMatchAt l = some (t, c, r) →
      c ≠ [] ∧ c.length < l.length ∧ r.length < l.length := by
  intro l t c r h
  unfold tryMatchAt at h
  split at h
  case h_2 => exact absurd h (by simp)
  case h_1 l2 rest =>
    split at h
    case h_1 => exact absurd h (by simp)
    case h_2 w r1 hne hw =>
      split at h
      case h_2 => exact absurd h (by simp)
      case h_1 c2 cs =>
        split at h
        case h_2 => exact absurd h (by simp)
        case h_1 pre rest2 hfc =>
          simp only [Option.some.injEq, Prod.mk.injEq] at h
          obtain ⟨h1, h2, h3⟩ := h
          subst h1
          subst h2
          subst h3
          have hlen := findClose_len _ _ _ _ hfc
          have hw2 : w ++ ('>' :: c2 :: cs) = rest := by
            have h4 := congrArg Prod.fst hw
            have h5 := congrArg Prod.snd hw
            simp only [takeWord] at h4 h5
            rw [← h4, ← h5]
            exact List.takeWhile_append_dropWhile isWordChar rest
          have hr : rest.length = w.length + 2 + cs.length := by
            rw [← hw2]
            simp only [List.length_append, List.length_cons]
            omega
          simp only [List.length_cons, List.length_append, List.length_nil] at hlen
          refine ⟨by simp, ?_, ?_⟩ <;>
            simp only [List.length_cons] <;> omega

theorem scanAux_mem :
    ∀ fuel l t c, (t, c) ∈ scanAux fuel l → c ≠ [] ∧ c.length < l.length := by
  intro fuel
  induction fuel with
  | zero => intro l t c h; simp [scanAux] at h
  | succ fuel ih =>
    intro l t c h
    cases l with
    | nil => simp [scanAux] at h
    | cons c0 rest =>
      unfold scanAux at h
      cases htm : tryMatchAt (c0 :: rest) with
      | some res =>
        obtain ⟨t2, c2, r2⟩ := res
        rw [htm] at h
        simp only [List.mem_cons, Prod.mk.injEq] at h
        rcases h with ⟨rfl, rfl⟩ | h
        · have h3 := tryMatchAt_some _ _ _ _ htm
          exact ⟨h3.1, h3.2.1⟩
        · have h3 := tryMatchAt_some _ _ _ _ htm
          have h4 := ih r2 t c h
          exact ⟨h4.1, h4.2.trans h3.2.2⟩
      | none =>
        rw [htm] at h
        have h4 := ih rest t c h
        refine ⟨h4.1, Nat.lt_trans h4.2 ?_⟩
        simp

theorem scanMatches_mem (l : List Char) (t : String) (c : List Char)
    (h : (t, c) ∈ scanMatches l) : c ≠ [] ∧ c.length < l.length :=
  scanAux_mem l.length l t c h

theorem stripChars_len (l : List Char) : (stripChars l).length ≤ l.length := by
  unfold stripChars
  have h1 : ∀ (x : List Char), (x.dropWhile isPySpace).length ≤ x.length :=
    fun x => (List.dropWhile_sublist isPySpace).length_le
  simp only [List.length_reverse]
  exact le_trans (h1 _) (by simpa using h1 l)

/-! ## Fuel does not matter for `xml2dict` once it covers the input length -/

theorem xml2dictLoop_congr (dec1 dec2 : List Char → Node) (lst : List String) :
    ∀ (pairs : List (String × List Char))
      (st : List (String × Node) × List (String × List Node)),
      (∀ p ∈ pairs, dec1 p.2 = dec2 p.2) →
      xml2dictLoop dec1 lst pairs st = xml2dictLoop dec2 lst pairs st := by
  intro pairs
  induction pairs with
  | nil => intro st h; rfl
  | cons p rest ih =>
    intro st h
    obtain ⟨k, v⟩ := p
    obtain ⟨ret, lstd⟩ := st
    unfold xml2dictLoop
    have hd : dec1 v = dec2 v := h (k, v) (List.mem_cons_self _ _)
    rw [hd]
    split
    · exact ih _ (fun q hq => h q (List.mem_cons_of_mem _ hq))
    · exact ih _ (fun q hq => h q (List.mem_cons_of_mem _ hq))

theorem xml2dictAux_fuel :
    ∀ n xml lst, xml.length ≤ n →
      xml2dictAux (n + 1) xml lst = xml2dictAux (xml.length + 1) xml lst := by
  intro n
  induction n using Nat.strong_induction_on with
  | _ n ih =>
    intro xml lst hle
    rcases Nat.eq_or_lt_of_le hle with heq | hlt
    · rw [heq]
    · conv_lhs => rw [show n + 1 = (n - 1) + 1 + 1 from by omega]
      -- unfold one level on both sides
      show xml2dictAux ((n - 1) + 1 + 1) xml lst = xml2dictAux (xml.length + 1) xml lst
      unfold xml2dictAux
      cases hroot : scanMatches (stripChars xml) with
      | nil => rfl
      | cons p rest =>
        have hcongr : xml2dictLoop (fun v => xml2dictAux (n - 1 + 1) v lst) lst
              (p :: rest) ([], []) =
            xml2dictLoop (fun v => xml2dictAux xml.length v lst) lst
              (p :: rest) ([], []) := by
          apply xml2dictLoop_congr
          intro q hq
          rw [← hroot] at hq
          have hmem := scanMatches_mem _ _ _ hq
          have hq2 : q.2.length < xml.length :=
            lt_of_lt_of_le hmem.2 (stripChars_len xml)
          have e1 := ih (n - 1) (by omega) q.2 lst (by omega)
          have e2 : xml2dictAux xml.length q.2 lst =
              xml2dictAux (q.2.length + 1) q.2 lst := by
            rw [show xml.length = (xml.length - 1) + 1 from by omega]
            exact ih (xml.length - 1) (by omega) q.2 lst (by omega)
          rw [e1, e2]
        show Node.dict (dictUpdate
            (xml2dictLoop (fun v => xml2dictAux (n - 1 + 1) v lst) lst
              (p :: rest) ([], [])).1
            (xml2dictLoop (fun v => xml2dictAux (n - 1 + 1) v lst) lst
              (p :: rest) ([], [])).2) =
          Node.dict (dictUpdate
            (xml2dictLoop (fun v => xml2dictAux xml.length v lst) lst
              (p :: rest) ([], [])).1
            (xml2dictLoop (fun v => xml2dictAux xml.length v lst) lst
              (p :: rest) ([], [])).2)
        rw [hcongr]

/-- Canonical recursion equation for `xml2dict`: the fuel covers the whole
input, so inner decodes are again `xml2dict`. -/
theorem xml2dict_eq (xml : String) (lst : List String) :
    xml2dict xml lst =
      match scanMatches (stripChars xml.data) with
      | [] => Node.str (String.mk (stripChars xml.data))
      | root =>
        Node.dict (dictUpdate
          (xml2dictLoop (fun v => xml2dict (String.mk v) lst) lst root ([], [])).1
          (xml2dictLoop (fun v => xml2dict (String.mk v) lst) lst root ([], [])).2) := by
  show xml2dictAux (xml.data.length + 1) xml.data lst = _
  unfold xml2dictAux
  cases hroot : scanMatches (stripChars xml.data) with
  | nil => rfl
  | cons p rest =>
    have hcongr : xml2dictLoop (fun v => xml2dictAux xml.data.length v lst) lst
          (p :: rest) ([], []) =
        xml2dictLoop (fun v => xml2dict (String.mk v) lst) lst (p :: rest) ([], []) := by
      apply xml2dictLoop_congr
      intro q hq
      rw [← hroot] at hq
      have hmem := scanMatches_mem _ _ _ hq
      have hq2 : q.2.length < xml.data.length :=
        lt_of_lt_of_le hmem.2 (stripChars_len _)
      show xml2dictAux xml.data.length q.2 lst = xml2dictAux (q.2.length + 1) q.2 lst
      rw [show xml.data.length = (xml.data.length - 1) + 1 from by omega]
      exact xml2dictAux_fuel (xml.data.length - 1) q.2 lst (by omega)
    show Node.dict (dictUpdate
        (xml2dictLoop (fun v => xml2dictAux xml.data.length v lst) lst
          (p :: rest) ([], [])).1
        (xml2dictLoop (fun v => xml2dictAux xml.data.length v lst) lst
          (p :: rest) ([], [])).2) = _
    rw [hcongr]

/-! ## Association-list lookups after updates -/

theorem dictGet_cons {α : Type} (p : String × α) (d : List (String × α)) (k : String) :
    dictGet (p :: d) k = if p.1 == k then some p.2 else dictGet d k := by
  unfold dictGet
  cases hp : (p.1 == k) <;> simp [List.find?_cons, hp]

theorem dictGet_none_of_any_false {α : Type} (d : List (String × α)) (k : String)
    (h : d.any (fun p => p.1 == k) = false) : dictGet d k = none := by
  induction d with
  | nil => rfl
  | cons p rest ih =>
    simp only [List.any_cons, Bool.or_eq_false_iff] at h
    rw [dictGet_cons, if_neg (by simp [h.1]), ih h.2]

theorem dictGet_append {α : Type} (d1 d2 : List (String × α)) (k : String) :
    dictGet (d1 ++ d2) k =
      match dictGet d1 k with
      | some v => some v
      | none => dictGet d2 k := by
  induction d1 with
  | nil => rfl
  | cons p rest ih =>
    rw [List.cons_append, dictGet_cons, dictGet_cons]
    by_cases hp : p.1 == k
    · rw [if_pos hp, if_pos hp]
    · rw [if_neg hp, if_neg hp, ih]

theorem dictGet_map_overwrite_ne {α : Type} (d : List (String × α)) (k0 : String)
    (v : α) (k : String) (hk : k ≠ k0) :
    dictGet (d.map (fun p => if p.1 == k0 then (k0, v) else p)) k = dictGet d k := by
  induction d with
  | nil => rfl
  | cons p rest ih =>
    simp only [List.map_cons]
    by_cases hp : (p.1 == k0) = true
    · rw [if_pos hp, dictGet_cons, dictGet_cons, ih]
      have h1 : (k0 == k) = false := by
        rw [beq_eq_false_iff_ne]
        exact fun h => hk h.symm
      have h2 : (p.1 == k) = false := by
        rw [beq_eq_false_iff_ne, beq_iff_eq] at *
        rw [hp]
        exact fun h => hk h.symm
      simp [h1, h2]
    · rw [if_neg hp, dictGet_cons, dictGet_cons, ih]

theorem dictGet_map_overwrite_self {α : Type} (d : List (String × α)) (k0 : String)
    (v : α) (hAny : d.any (fun p => p.1 == k0) = true) :
    dictGet (d.map (fun p => if p.1 == k0 then (k0, v) else p)) k0 = some v := by
  induction d with
  | nil => simp at hAny
  | cons p rest ih =>
    simp only [List.map_cons]
    by_cases hp : (p.1 == k0) = true
    · rw [if_pos hp, dictGet_cons]
      simp
    · rw [if_neg hp, dictGet_cons, if_neg hp]
      simp only [List.any_cons, Bool.or_eq_true] at hAny
      rcases hAny with h | h
      · exact absurd h hp
      · exact ih h

theorem dictGet_dictSet_self {α : Type} (d : List (String × α)) (k : String) (v : α) :
    dictGet (dictSet d k v) k = some v := by
  unfold dictSet
  split
  case isTrue hAny => exact dictGet_map_overwrite_self d k v hAny
  case isFalse hAny =>
    rw [dictGet_append, dictGet_none_of_any_false d k (Bool.eq_false_iff.mpr hAny)]
    simp [dictGet_cons]

theorem dictGet_dictSet_ne {α : Type} (d : List (String × α)) (k0 : String) (v : α)
    (k : String) (hk : k ≠ k0) :
    dictGet (dictSet d k0 v) k = dictGet d k := by
  unfold dictSet
  split
  case isTrue hAny => exact dictGet_map_overwrite_ne d k0 v k hk
  case isFalse hAny =>
    rw [dictGet_append]
    cases hg : dictGet d k with
    | some w => rfl
    | none =>
      have h1 : (k0 == k) = false := by
        rw [beq_eq_false_iff_ne]
        exact fun h => hk h.symm
      simp [dictGet_cons, h1, dictGet]

theorem dictGet_mapAppend_ne {α : Type} (d : List (String × List α)) (k0 : String)
    (v : α) (k : String) (hk : k ≠ k0) :
    dictGet (d.map (fun p => if p.1 == k0 then (p.1, p.2 ++ [v]) else p)) k =
      dictGet d k := by
  induction d with
  | nil => rfl
  | cons p rest ih =>
    simp only [List.map_cons]
    by_cases hp : (p.1 == k0) = true
    · rw [if_pos hp, dictGet_cons, dictGet_cons, ih]
      have h2 : (p.1 == k) = false := by
        rw [beq_eq_false_iff_ne, beq_iff_eq] at *
        rw [hp]
        exact fun h => hk h.symm
      simp [h2]
    · rw [if_neg hp, dictGet_cons, dictGet_cons, ih]

theorem dictGet_mdictAppend_self {α : Type} (d : List (String × List α)) (k : String)
    (v : α) :
    dictGet (mdictAppend d k v) k = some ((dictGet d k).getD [] ++ [v]) := by
  unfold mdictAppend
  split
  case isTrue hAny =>
    induction d with
    | nil => simp at hAny
    | cons p rest ih =>
      simp only [List.map_cons]
      by_cases hp : (p.1 == k) = true
      · rw [if_pos hp, dictGet_cons, dictGet_cons]
        simp [hp]
      · rw [if_neg hp, dictGet_cons, dictGet_cons, if_neg hp, if_neg hp]
        simp only [List.any_cons, Bool.or_eq_true] at hAny
        rcases hAny with h | h
        · exact absurd h hp
        · exact ih h
  case isFalse hAny =>
    rw [dictGet_append, dictGet_none_of_any_false d k (Bool.eq_false_iff.mpr hAny)]
    simp [dictGet_cons]

theorem dictGet_mdictAppend_ne {α : Type} (d : List (String × List α)) (k0 : String)
    (v : α) (k : String) (hk : k ≠ k0) :
    dictGet (mdictAppend d k0 v) k = dictGet d k := by
  unfold mdictAppend
  split
  case isTrue hAny => exact dictGet_mapAppend_ne d k0 v k hk
  case isFalse hAny =>
    rw [dictGet_append]
    cases hg : dictGet d k with
    | some w => rfl
    | none =>
      have h1 : (k0 == k) = false := by
        rw [beq_eq_false_iff_ne]
        exact fun h => hk h.symm
      simp [dictGet_cons, h1, dictGet]

/-! ## The accumulation loop of `xml2dict` -/

theorem lastOpt_cons {α : Type} (a : α) (l : List α) :
    lastOpt (a :: l) = some ((lastOpt l).getD a) := by
  induction l generalizing a with
  | nil => rfl
  | cons b r ih =>
    show lastOpt (b :: r) = some ((lastOpt (b :: r)).getD a)
    rw [ih b]
    rfl

theorem lastOpt_map {α β : Type} (g : α → β) (l : List α) :
    lastOpt (l.map g) = (lastOpt l).map g := by
  induction l with
  | nil => rfl
  | cons a r ih =>
    rw [List.map_cons, lastOpt_cons, lastOpt_cons, ih]
    cases lastOpt r <;> rfl

theorem xml2dictLoop_notin (dec : List Char → Node) (lst : List String) (k : String)
    (hk : k ∉ lst) :
    ∀ (pairs : List (String × List Char)) (ret : List (String × Node))
      (lstd : List (String × List Node)),
      dictGet (xml2dictLoop dec lst pairs (ret, lstd)).1 k =
        (match lastOpt (pairs.filter (fun p => p.1 == k)) with
         | some p => some (dec p.2)
         | none => dictGet ret k) ∧
      dictGet (xml2dictLoop dec lst pairs (ret, lstd)).2 k = dictGet lstd k := by
  intro pairs
  induction pairs with
  | nil => intro ret lstd; exact ⟨rfl, rfl⟩
  | cons p rest ih =>
    intro ret lstd
    obtain ⟨k1, v1⟩ := p
    unfold xml2dictLoop
    by_cases h1 : k1 ∈ lst
    · rw [if_pos h1]
      have hne : k ≠ k1 := fun h => hk (h ▸ h1)
      have hk1 : (k1 == k) = false := by
        rw [beq_eq_false_iff_ne]
        exact fun h => hne h.symm
      refine ⟨?_, ?_⟩
      · rw [(ih ret (mdictAppend lstd k1 (dec v1))).1, List.filter_cons]
        simp only [hk1, Bool.false_eq_true, if_false]
      · rw [(ih ret (mdictAppend lstd k1 (dec v1))).2,
            dictGet_mdictAppend_ne lstd k1 (dec v1) k hne]
    · rw [if_neg h1]
      by_cases h2 : (k1 == k) = true
      · have hkk : k1 = k := by rwa [beq_iff_eq] at h2
        subst hkk
        refine ⟨?_, (ih (dictSet ret k1 (dec v1)) lstd).2⟩
        rw [(ih (dictSet ret k1 (dec v1)) lstd).1, List.filter_cons]
        simp only [h2, if_true, lastOpt_cons]
        cases hl : lastOpt (rest.filter (fun p => p.1 == k1)) with
        | none =>
          simp only [Option.getD]
          exact dictGet_dictSet_self ret k1 (dec v1)
        | some q => rfl
      · have hf1 : (k1 == k) = false := Bool.eq_false_iff.mpr h2
        have hne : k ≠ k1 := by
          rw [beq_eq_false_iff_ne] at hf1
          exact fun h => hf1 h.symm
        refine ⟨?_, (ih (dictSet ret k1 (dec v1)) lstd).2⟩
        rw [(ih (dictSet ret k1 (dec v1)) lstd).1, List.filter_cons]
        simp only [hf1, Bool.false_eq_true, if_false]
        cases hl : lastOpt (rest.filter (fun p => p.1 == k)) with
        | none =>
          simp only
          exact dictGet_dictSet_ne ret k1 (dec v1) k hne
        | some q => rfl

theorem xml2dictLoop_in (dec : List Char → Node) (lst : List String) (k : String)
    (hk : k ∈ lst) :
    ∀ (pairs : List (String × List Char)) (ret : List (String × Node))
      (lstd : List (String × List Node)),
      dictGet (xml2dictLoop dec lst pairs (ret, lstd)).1 k = dictGet ret k ∧
      dictGet (xml2dictLoop dec lst pairs (ret, lstd)).2 k =
        (match pairs.filter (fun p => p.1 == k) with
         | [] => dictGet lstd k
         | fp => some ((dictGet lstd k).getD [] ++ fp.map (fun p => dec p.2))) := by
  intro pairs
  induction pairs with
  | nil => intro ret lstd; exact ⟨rfl, rfl⟩
  | cons p rest ih =>
    intro ret lstd
    obtain ⟨k1, v1⟩ := p
    unfold xml2dictLoop
    by_cases h1 : k1 ∈ lst
    · rw [if_pos h1]
      by_cases h2 : (k1 == k) = true
      · have hkk : k1 = k := by rwa [beq_iff_eq] at h2
        subst hkk
        refine ⟨(ih ret (mdictAppend lstd k1 (dec v1))).1, ?_⟩
        rw [(ih ret (mdictAppend lstd k1 (dec v1))).2, List.filter_cons]
        simp only [h2, if_true]
        cases hf : rest.filter (fun p => p.1 == k1) with
        | nil =>
          simp only
          rw [dictGet_mdictAppend_self]
          rfl
        | cons q qs =>
          simp only
          rw [dictGet_mdictAppend_self]
          simp [List.append_assoc]
      · have hf1 : (k1 == k) = false := Bool.eq_false_iff.mpr h2
        have hne : k ≠ k1 := by
          rw [beq_eq_false_iff_ne] at hf1
          exact fun h => hf1 h.symm
        refine ⟨(ih ret (mdictAppend lstd k1 (dec v1))).1, ?_⟩
        rw [(ih ret (mdictAppend lstd k1 (dec v1))).2,
            dictGet_mdictAppend_ne lstd k1 (dec v1) k hne, List.filter_cons]
        simp only [hf1, Bool.false_eq_true, if_false]
    · rw [if_neg h1]
      have hne : k ≠ k1 := fun h => h1 (h ▸ hk)
      have hf1 : (k1 == k) = false := by
        rw [beq_eq_false_iff_ne]
        exact fun h => hne h.symm
      refine ⟨?_, ?_⟩
      · rw [(ih (dictSet ret k1 (dec v1)) lstd).1,
            dictGet_dictSet_ne ret k1 (dec v1) k hne]
      · rw [(ih (dictSet ret k1 (dec v1)) lstd).2, List.filter_cons]
        simp only [hf1, Bool.false_eq_true, if_false]

theorem map_fst_mapAppend {α : Type} (d : List (String × List α)) (k : String) (v : α) :
    (d.map (fun p => if p.1 == k then (p.1, p.2 ++ [v]) else p)).map Prod.fst =
      d.map Prod.fst := by
  induction d with
  | nil => rfl
  | cons p rest ih =>
    simp only [List.map_cons, ih, List.cons.injEq, and_true]
    by_cases hp : (p.1 == k) = true
    · rw [if_pos hp]
    · rw [if_neg hp]

theorem mdictAppend_keys {α : Type} (d : List (String × List α)) (k : String) (v : α) :
    (mdictAppend d k v).map Prod.fst =
      if d.any (fun p => p.1 == k) then d.map Prod.fst
      else d.map Prod.fst ++ [k] := by
  unfold mdictAppend
  split
  · exact map_fst_mapAppend d k v
  · simp

theorem not_mem_keys_of_any_false {α : Type} (d : List (String × α)) (k : String)
    (h : d.any (fun p => p.1 == k) = false) : k ∉ d.map Prod.fst := by
  intro hmem
  obtain ⟨p, hp, hpk⟩ := List.mem_map.mp hmem
  rw [List.any_eq_false] at h
  exact absurd (by rw [beq_iff_eq]; exact hpk) (h p hp)

theorem xml2dictLoop_lstd_nodup (dec : List Char → Node) (lst : List String) :
    ∀ (pairs : List (String × List Char)) (ret : List (String × Node))
      (lstd : List (String × List Node)),
      (lstd.map Prod.fst).Nodup →
      ((xml2dictLoop dec lst pairs (ret, lstd)).2.map Prod.fst).Nodup := by
  intro pairs
  induction pairs with
  | nil => intro ret lstd h; exact h
  | cons p rest ih =>
    intro ret lstd h
    obtain ⟨k1, v1⟩ := p
    unfold xml2dictLoop
    by_cases h1 : k1 ∈ lst
    · rw [if_pos h1]
      apply ih
      rw [mdictAppend_keys]
      by_cases hAny : (lstd.any (fun p => p.1 == k1)) = true
      · rw [if_pos hAny]
        exact h
      · rw [if_neg hAny]
        rw [List.nodup_append]
        refine ⟨h, List.nodup_singleton k1, ?_⟩
        intro a ha hb
        simp only [List.mem_singleton] at hb
        subst hb
        exact not_mem_keys_of_any_false lstd a (Bool.eq_false_iff.mpr hAny) ha
    · rw [if_neg h1]
      exact ih _ _ h

theorem dictGet_dictUpdate_nodup (ret : List (String × Node))
    (lstd : List (String × List Node)) (k : String)
    (hnd : (lstd.map Prod.fst).Nodup) :
    dictGet (dictUpdate ret lstd) k =
      match dictGet lstd k with
      | some vs => some (Node.list vs)
      | none => dictGet ret k := by
  unfold dictUpdate
  induction lstd generalizing ret with
  | nil => rfl
  | cons q qs ih =>
    simp only [List.map_cons, List.nodup_cons] at hnd
    simp only [List.foldl_cons, dictGet_cons]
    by_cases hq : (q.1 == k) = true
    · have hqk : q.1 = k := by rwa [beq_iff_eq] at hq
      rw [if_pos hq, ih _ hnd.2]
      have hknot : dictGet qs k = none := by
        apply dictGet_none_of_any_false
        rw [List.any_eq_false]
        intro p hp
        simp only [beq_iff_eq]
        intro hpk
        apply hnd.1
        have hm : p.1 ∈ qs.map Prod.fst := List.mem_map_of_mem Prod.fst hp
        rw [hpk, ← hqk] at hm
        exact hm
      rw [hknot]
      simp only
      rw [← hqk]
      exact dictGet_dictSet_self ret q.1 (Node.list q.2)
    · rw [if_neg hq, ih _ hnd.2]
      cases hg : dictGet qs k with
      | some vs => rfl
      | none =>
        simp only
        exact dictGet_dictSet_ne ret q.1 (Node.list q.2) k
          (fun h => hq (by rw [beq_iff_eq]; exact h.symm))

/-! ## C8: accumulation semantics of the decoder -/

/-- C8: in a decoded document, a tag `k` in the repeatable set that occurs
at the top level maps to the ordered list of its decoded occurrences in
document order, while a tag not in the repeatable set maps to the decoded
value of its last occurrence (earlier ones silently dropped); decoding
`<A>1</A><A>2</A>` without `"A"` in the repeatable set yields
`{"A": "2"}`. -/
theorem xml2dict_repeatable_accumulation :
    (∀ (xml : String) (lst : List String) (k : String),
      topMatches xml ≠ [] →
      ∃ d, xml2dict xml lst = Node.dict d ∧
        dictGet d k =
          (if k ∈ lst then
            (if occs xml k = [] then none
             else some (Node.list
               ((occs xml k).map (fun v => xml2dict (String.mk v) lst))))
           else (lastOpt (occs xml k)).map (fun v => xml2dict (String.mk v) lst))) ∧
    xml2dict "<A>1</A><A>2</A>" [] = Node.dict [("A", Node.str "2")] := by
  constructor
  · intro xml lst k hroot
    rw [xml2dict_eq]
    cases hm : scanMatches (stripChars xml.data) with
    | nil => exact absurd hm hroot
    | cons p rest =>
      refine ⟨_, rfl, ?_⟩
      rw [dictGet_dictUpdate_nodup _ _ _
        (xml2dictLoop_lstd_nodup _ _ _ _ _ (by simp))]
      have hocc : occs xml k =
          ((p :: rest).filter (fun p2 => p2.1 == k)).map Prod.snd := by
        unfold occs topMatches
        rw [hm]
      by_cases hk : k ∈ lst
      · rw [if_pos hk]
        rw [(xml2dictLoop_in (fun v => xml2dict (String.mk v) lst) lst k hk
              (p :: rest) [] []).2,
            (xml2dictLoop_in (fun v => xml2dict (String.mk v) lst) lst k hk
              (p :: rest) [] []).1]
        rw [hocc]
        cases hf : (p :: rest).filter (fun p2 => p2.1 == k) with
        | nil => simp [dictGet]
        | cons q qs =>
          simp [dictGet, List.map_map]
      · rw [if_neg hk]
        rw [(xml2dictLoop_notin (fun v => xml2dict (String.mk v) lst) lst k hk
              (p :: rest) [] []).2,
            (xml2dictLoop_notin (fun v => xml2dict (String.mk v) lst) lst k hk
              (p :: rest) [] []).1]
        rw [hocc, lastOpt_map]
        cases hl : lastOpt ((p :: rest).filter (fun p2 => p2.1 == k)) with
        | none => simp [dictGet]
        | some q => simp [dictGet]
  · rfl

/-- Witness for `xml2dict_repeatable_accumulation`: the hypothesis holds at
the concrete document `<A>1</A><A>2</A>` with an empty repeatable set, and
the decoded mapping of `"A"` is its last occurrence. -/
theorem xml2dict_repeatable_accumulation_witness :
    topMatches "<A>1</A><A>2</A>" ≠ [] ∧
    (∃ d, xml2dict "<A>1</A><A>2</A>" [] = Node.dict d ∧
      dictGet d "A" =
        (if "A" ∈ ([] : List String) then
          (if occs "<A>1</A><A>2</A>" "A" = [] then none
           else some (Node.list
             ((occs "<A>1</A><A>2</A>" "A").map
               (fun v => xml2dict (String.mk v) []))))
         else (lastOpt (occs "<A>1</A><A>2</A>" "A")).map
           (fun v => xml2dict (String.mk v) []))) :=
  ⟨by decide,
   xml2dict_repeatable_accumulation.1 "<A>1</A><A>2</A>" [] "A" (by decide)⟩

/-! ## C10: only non-empty element contents produce mapping keys -/

/-- C10: the tag-matching pattern `<(\w+)>([\s\S]+?)</\1>` requires at least
one character of content, so every scanner match carries non-empty
content; an empty element such as `<A></A>` never matches, hence an input
or element body consisting only of empty elements decodes to its literal
whitespace-stripped text instead of a mapping. -/
theorem xml2dict_nonempty_content_only :
    (∀ (l : List Char) (t : String) (c : List Char),
      (t, c) ∈ scanMatches l → c ≠ []) ∧
    xml2dict "<A></A>" [] = Node.str "<A></A>" ∧
    xml2dict " \n <A></A>  " [] = Node.str "<A></A>" ∧
    xml2dict "<R><A></A></R>" [] = Node.dict [("R", Node.str "<A></A>")] :=
  ⟨fun l t c h => (scanMatches_mem l t c h).1, rfl, rfl, rfl⟩

/-- Witness for `xml2dict_nonempty_content_only`: the membership hypothesis
holds for the concrete match of `<A>x</A>`, whose content `x` is
non-empty. -/
theorem xml2dict_nonempty_content_only_witness :
    ("A", [ 'x' ]) ∈ scanMatches "<A>x</A>".data ∧ ([ 'x' ] : List Char) ≠ [] :=
  ⟨by decide,
   xml2dict_nonempty_content_only.1 "<A>x</A>".data "A" [ 'x' ] (by decide)⟩
